import Mathlib

/-!
# Verification of the gstatx history-extraction engine

Shallow embedding of `src/utils/git.ts`: the log-stream parser
(`getCommits`), the identity normalizer (`parseMailmap`), the contributor
aggregator (`getContributors`) and the branch-membership resolver
(the post-processing pass of `getCommits`).

JavaScript string primitives used by the source (`trim`, `split`,
`toLowerCase`, `parseInt`, the few regexes) are modelled character-wise
below; all container state (JS `Map` with insertion order) is modelled by
association lists with JS `Map.set` semantics.
-/

namespace Gstatx

/-! ## JavaScript string primitives -/

/-- Whitespace recognised by JS `trim` / `\s` (ASCII subset). -/
def isWs (c : Char) : Bool :=
  c = ' ' || c = '\t' || c = '\n' || c = '\r'

/-- JS `String.prototype.trim`. -/
def jsTrim (s : String) : String :=
  ⟨((s.data.dropWhile isWs).reverse.dropWhile isWs).reverse⟩

/-- JS string falsiness (`!s`): the string is empty. -/
def strEmpty (s : String) : Bool := s.data.isEmpty

/-- Core of JS `split` with a one-character separator. -/
def splitCharList (sep : Char) : List Char → List (List Char)
  | [] => [[]]
  | c :: rest =>
    let r := splitCharList sep rest
    if c = sep then [] :: r
    else
      match r with
      | t :: ts => (c :: t) :: ts
      | [] => [[c]]

/-- JS `s.split(sep)` for a one-character separator string. -/
def jsSplitChar (sep : Char) (s : String) : List String :=
  (splitCharList sep s.data).map (fun cs => ⟨cs⟩)

/-- ASCII lower-casing of one character, as JS `toLowerCase` acts on ASCII. -/
def lcChar (c : Char) : Char :=
  if 65 ≤ c.toNat ∧ c.toNat ≤ 90 then Char.ofNat (c.toNat + 32) else c

/-- JS `String.prototype.toLowerCase` (ASCII fragment). -/
def jsToLower (s : String) : String := ⟨s.data.map lcChar⟩

/-- Digit run accumulator for `parseInt`. -/
def digitsToNat : List Char → Nat → Nat
  | [], acc => acc
  | c :: rest, acc => digitsToNat rest (acc * 10 + (c.toNat - 48))

/-- JS `parseInt(s, 10)`: skip leading whitespace, optional sign, then the
longest leading digit run; `none` models the `NaN` result. -/
def jsParseInt (s : String) : Option Int :=
  let cs := s.data.dropWhile isWs
  let signed : Bool × List Char :=
    match cs with
    | '-' :: r => (true, r)
    | '+' :: r => (false, r)
    | _ => (false, cs)
  let ds := signed.2.takeWhile (fun c => c.isDigit)
  if ds.isEmpty then none
  else
    let n : Int := Int.ofNat (digitsToNat ds 0)
    some (if signed.1 then -n else n)

/-- `parseInt(s, 10) || 0` as the source applies it to numstat counts. -/
def jsNumOr0 (s : String) : Int := (jsParseInt s).getD 0

/-- `x || y` on an optional string (JS truthiness: `undefined` and `""` fall
through to the default). -/
def jsOrStr (o : Option String) (d : String) : String :=
  match o with
  | some s => if strEmpty s then d else s
  | none => d

/-- Split on maximal whitespace runs; used on pre-trimmed input it models
`line.trim().split(/\s+/)`. -/
def splitWsCore (cs : List Char) : List (List Char) :=
  cs.foldr
    (fun c toks =>
      match toks with
      | [] => [[]]
      | t :: ts =>
        if isWs c then (if t.isEmpty then t :: ts else [] :: t :: ts)
        else (c :: t) :: ts)
    [[]]

/-- `line.trim().split(/\s+/)` from the numstat branch of `getCommits`. -/
def jsWords (line : String) : List String :=
  (splitWsCore (jsTrim line).data).map (fun cs => ⟨cs⟩)

/-- List-level prefix test (JS `startsWith`). -/
def strStartsWith (p s : String) : Bool := p.data.isPrefixOf s.data

/-- Drop the first `n` characters (JS `slice`, used to strip a matched
leading prefix of known length). -/
def strDropChars (s : String) (n : Nat) : String := ⟨s.data.drop n⟩

/-- JS `Array.prototype.join(" ")`. -/
def joinSpace : List String → String
  | [] => ""
  | [s] => s
  | s :: rest => s ++ " " ++ joinSpace rest

/-- The suffix after the first occurrence of `pat`, if any: the capture
behaviour of an unanchored regex `pat(.+)` up to the nonemptiness check. -/
def afterFirstMatch (pat : List Char) : List Char → Option (List Char)
  | [] => if pat.isEmpty then some [] else none
  | c :: rest =>
    if pat.isPrefixOf (c :: rest) then some ((c :: rest).drop pat.length)
    else afterFirstMatch pat rest

/-- `ref.match(/HEAD -> (.+)/)` capture group 1. -/
def headArrowCapture (ref : String) : Option String :=
  match afterFirstMatch "HEAD -> ".data ref.data with
  | some rest => if rest.isEmpty then none else some ⟨rest⟩
  | none => none

/-- `replace(/^(origin|upstream|remote)\//, "")`. -/
def stripRemoteHead (s : String) : String :=
  if strStartsWith "origin/" s then strDropChars s 7
  else if strStartsWith "upstream/" s then strDropChars s 9
  else if strStartsWith "remote/" s then strDropChars s 7
  else s

/-! ## Data model (`CommitFile`, `Commit`) -/

/-- `CommitFile` from `src/utils/git.ts`. -/
structure CommitFile where
  path : String
  insertions : Int
  deletions : Int
deriving DecidableEq

/-- `Commit` from `src/utils/git.ts`. -/
structure Commit where
  hash : String
  author : String
  email : String
  date : String
  message : String
  filesChanged : Nat
  insertions : Int
  deletions : Int
  files : List CommitFile
  branches : List String
deriving DecidableEq

/-! ## Log-stream parser (`getCommits`, lines 305–442) -/

/-- The `currentCommit` record while scanning (its five header fields plus
the decoration-derived branches). -/
structure OpenCommit where
  hash : String
  author : String
  email : String
  date : String
  message : String
  branches : List String
deriving DecidableEq

/-- Scan state of the `getCommits` line loop: `currentCommit`, the four
accumulators, and the result list `commits`.  `files` is the contents of
the live `currentFiles` array; the source pushes a *reference* to that
array into each sealed commit (`files: currentFiles`, git.ts:334), and the
array is rebound only on a successful header parse (git.ts:395), so the
commits pushed since the last rebind still alias it — `pending` counts
them, and their `files` are frozen to the array's accumulated contents at
the next rebind or at end of scan. -/
structure ParseState where
  currentCommit : Option OpenCommit
  filesChanged : Nat
  insertions : Int
  deletions : Int
  files : List CommitFile
  pending : Nat
  commits : List Commit
deriving DecidableEq

def initState : ParseState :=
  { currentCommit := none, filesChanged := 0, insertions := 0,
    deletions := 0, files := [], pending := 0, commits := [] }

/-- The truthiness conjunction at lines 318–324 / 421–427: all five header
fields of the open commit are nonempty. -/
def openComplete (c : OpenCommit) : Bool :=
  !strEmpty c.hash && !strEmpty c.author && !strEmpty c.email &&
    !strEmpty c.date && !strEmpty c.message

/-- The guard at lines 318–339 / 421–442: push `currentCommit` onto
`commits` when all five header fields are nonempty. -/
def sealIfComplete (st : ParseState) : List Commit :=
  match st.currentCommit with
  | none => st.commits
  | some c =>
    if openComplete c then
      st.commits ++
        [{ hash := c.hash, author := c.author, email := c.email,
           date := c.date, message := c.message,
           filesChanged := st.filesChanged, insertions := st.insertions,
           deletions := st.deletions, files := st.files,
           branches := c.branches }]
    else st.commits

/-- Rewrite the last `n` commits of `l` with `f`: these are the commit
objects pushed since the last rebind of `currentFiles`, which all hold a
reference to the same live array. -/
def touchLast (n : Nat) (f : Commit → Commit) (l : List Commit) :
    List Commit :=
  l.take (l.length - n) ++ (l.drop (l.length - n)).map f

/-- Whether the sealing guard pushes a commit from this state. -/
def sealCount (st : ParseState) : Nat :=
  match st.currentCommit with
  | none => 0
  | some c => if openComplete c then 1 else 0

/-- The reference semantics of `files: currentFiles` (git.ts:334): when the
live array is frozen — by the next rebind at git.ts:395 or by the end of
the scan — every commit object pushed since the previous rebind receives
its accumulated contents as its `files`. -/
def fixPending (st : ParseState) : List Commit :=
  touchLast st.pending (fun c => { c with files := st.files }) st.commits

/-- Freeze the live array into the pending commits and seal the open
commit: this happens at every successful header parse (push at git.ts:325,
rebind at git.ts:395) and once more at end of stream (git.ts:421–442). -/
def finishScan (st : ParseState) : List Commit :=
  sealIfComplete { st with commits := fixPending st }

/-- Decoration parsing (lines 356–382): split the refs field on commas,
handle `HEAD -> X`, skip tags and `HEAD`, strip remote prefixes, dedupe. -/
def parseRefs (refs : String) : List String :=
  if strEmpty refs then []
  else
    ((jsSplitChar ',' refs).map jsTrim).foldl
      (fun acc ref =>
        if strStartsWith "HEAD ->" ref then
          match headArrowCapture ref with
          | some b =>
            let cleanBranch := stripRemoteHead (jsTrim b)
            if !strEmpty cleanBranch && !(acc.contains cleanBranch) then
              acc ++ [cleanBranch]
            else acc
          | none => acc
        else if !(strStartsWith "tag:" ref) && !(strStartsWith "HEAD" ref) then
          let cleanRef := stripRemoteHead ref
          if !strEmpty cleanRef && !(acc.contains cleanRef) then
            acc ++ [cleanRef]
          else acc
        else acc)
      []

/-- `line.split("|")` as used on header lines (line 343). -/
def headerParts (line : String) : List String := jsSplitChar '|' line

/-- The fields of lines 345–351: the trimmed header parts (the sixth one is
`(parts[5]?.trim() || "").trim()`, which collapses to a plain trim of the
possibly-missing part) and the decoration-derived branch list. -/
def headerOpen (line : String) : OpenCommit :=
  { hash := jsTrim ((headerParts line).getD 0 ""),
    author := jsTrim ((headerParts line).getD 1 ""),
    email := jsTrim ((headerParts line).getD 2 ""),
    date := jsTrim ((headerParts line).getD 3 ""),
    message := jsTrim ((headerParts line).getD 4 ""),
    branches := parseRefs (jsTrim ((headerParts line).getD 5 "")) }

/-- Header branch of the line loop (lines 316–397): seal the open commit
(the push happens before the parse, so it is hoisted into every branch),
then parse the new header.  A successful parse rebinds `currentFiles`
(git.ts:395), freezing the live array into the commits that reference it
(`finishScan`); a failed parse leaves the array live, so the pushed commit
joins the pending references and the rest of the scan state is
untouched. -/
def stepHeader (line : String) (st : ParseState) : ParseState :=
  if (headerParts line).length ≥ 5 then
    if !strEmpty (jsTrim ((headerParts line).getD 0 "")) &&
        !strEmpty (jsTrim ((headerParts line).getD 1 "")) &&
        !strEmpty (jsTrim ((headerParts line).getD 2 "")) &&
        !strEmpty (jsTrim ((headerParts line).getD 3 "")) then
      { currentCommit := some (headerOpen line),
        filesChanged := 0, insertions := 0, deletions := 0, files := [],
        pending := 0, commits := finishScan st }
    else { st with commits := sealIfComplete st,
                   pending := st.pending + sealCount st }
  else { st with commits := sealIfComplete st,
                 pending := st.pending + sealCount st }

/-- Numstat branch of the line loop (lines 398–417). -/
def stepBody (line : String) (st : ParseState) : ParseState :=
  match jsWords line with
  | p0 :: p1 :: rest =>
    if !strEmpty p0 && !strEmpty p1 then
      if !strEmpty (joinSpace rest) then
        { st with
          filesChanged := st.filesChanged + 1,
          insertions := st.insertions + jsNumOr0 p0,
          deletions := st.deletions + jsNumOr0 p1,
          files := st.files ++ [⟨joinSpace rest, jsNumOr0 p0, jsNumOr0 p1⟩] }
      else st
    else st
  | _ => st

/-- One iteration of the `for (const line of lines)` loop: a line is a
header iff it contains the field delimiter (`line.includes("|")`). -/
def stepLine (st : ParseState) (line : String) : ParseState :=
  if line.data.contains '|' then stepHeader line st else stepBody line st

/-- `output.split("\n").filter((line) => line.trim())`. -/
def logLines (output : String) : List String :=
  (jsSplitChar '\n' output).filter (fun l => !strEmpty (jsTrim l))

/-- Run the scan over an explicit line list, freeze the live file array
into the commits still referencing it, and seal the last commit. -/
def runLines (lines : List String) : List Commit :=
  finishScan (lines.foldl stepLine initState)

/-- The pure parsing phase of `getCommits` (lines 305–442): from raw log
text to the sealed commit list, before branch-membership resolution. -/
def parseCommits (output : String) : List Commit :=
  runLines (logLines output)

/-- A header line that passes the guards at lines 344 and 353, so that it
replaces `currentCommit` and resets the accumulators. -/
def validHeaderStart (line : String) : Bool :=
  decide ((headerParts line).length ≥ 5) &&
  !strEmpty (jsTrim ((headerParts line).getD 0 "")) &&
  !strEmpty (jsTrim ((headerParts line).getD 1 "")) &&
  !strEmpty (jsTrim ((headerParts line).getD 2 "")) &&
  !strEmpty (jsTrim ((headerParts line).getD 3 ""))

/-- A header line whose resulting open commit will also pass the sealing
guard (its subject field is nonempty as well). -/
def isCompleteHeader (line : String) : Bool :=
  validHeaderStart line && !strEmpty (jsTrim ((headerParts line).getD 4 ""))

/-- The hash field of a header line. -/
def headerHash (line : String) : String :=
  jsTrim ((headerParts line).getD 0 "")

/-- The hash the open commit would contribute if the stream ended here. -/
def openHashes (st : ParseState) : List String :=
  match st.currentCommit with
  | none => []
  | some c => if openComplete c then [c.hash] else []

/-! ## Association lists with JS `Map` semantics -/

/-- JS `Map.set`: update in place when the key exists (keeping its
insertion position), otherwise append. -/
def assocSet {α : Type} : List (String × α) → String → α → List (String × α)
  | [], k, v => [(k, v)]
  | (k0, v0) :: rest, k, v =>
    if k0 = k then (k0, v) :: rest else (k0, v0) :: assocSet rest k v

/-- JS `Map.get` (`none` models `undefined`). -/
def assocGet {α : Type} : List (String × α) → String → Option α
  | [], _ => none
  | (k0, v0) :: rest, k => if k0 = k then some v0 else assocGet rest k

/-! ## Identity normalizer (`parseMailmap`, lines 24–61) -/

/-- `trimmed.matchAll(/<([^>]+)>/g)` followed by `.map((m) => m[1]?.trim())`:
every angle-bracketed nonempty token, trimmed, in scan order.  The `none`
accumulator means "not inside a candidate match". -/
def angleTokensAux : List Char → Option (List Char) → List String
  | [], _ => []
  | c :: rest, none =>
    angleTokensAux rest (if c = '<' then some [] else none)
  | c :: rest, some acc =>
    if c = '>' then
      if acc.isEmpty then angleTokensAux rest none
      else jsTrim ⟨acc.reverse⟩ :: angleTokensAux rest none
    else angleTokensAux rest (some (c :: acc))

def angleTokens (cs : List Char) : List String := angleTokensAux cs none

/-- One line of the mailmap loop (lines 31–55): skip blanks and comments,
and for a line with ≥ 2 email tokens map every further token (lowercased)
to the first token (lowercased), subject to the truthiness guards. -/
def mailmapLine (m : List (String × String)) (line : String) :
    List (String × String) :=
  if strEmpty (jsTrim line) || strStartsWith "#" (jsTrim line) then m
  else if (angleTokens (jsTrim line).data).length ≥ 2 then
    if strEmpty ((angleTokens (jsTrim line).data).headD "") then m
    else
      ((angleTokens (jsTrim line).data).tail).foldl
        (fun acc email =>
          if strEmpty email then acc
          else assocSet acc (jsToLower email)
            (jsToLower ((angleTokens (jsTrim line).data).headD "")))
        m
  else m

/-- `parseMailmap` (lines 24–61) applied to the raw `.mailmap` content. -/
def parseMailmap (content : String) : List (String × String) :=
  (jsSplitChar '\n' content).foldl mailmapLine []

/-- The canonicalization step of `getContributors` (lines 140–146):
lowercase, then follow the alias map if it has a (truthy) entry. -/
def canonicalize (m : List (String × String)) (email : String) : String :=
  let normalizedEmail := jsToLower email
  jsOrStr (assocGet m normalizedEmail) normalizedEmail

/-! ## Contributor aggregator (`getContributors`, lines 97–261) -/

/-- `RepoContributor` from `src/utils/git.ts`. -/
structure RepoContributor where
  name : String
  email : String
  commits : Nat
deriving DecidableEq

/-- The per-email record held in `contributorsMap`. -/
structure ContribRec where
  name : String
  email : String
  commits : Nat
  maxIndividualCommits : Nat
deriving DecidableEq

abbrev ContribMap := List (String × ContribRec)

/-- `nameCounts : Map<email, Map<name, count>>`. -/
abbrev NameCounts := List (String × List (String × Nat))

/-- The normalized (aggregation-key) email of one full-identity log line:
`email.toLowerCase()`, replaced by the mailmap image when that is truthy. -/
def fullKey (mp : List (String × String)) (email : String) : String :=
  jsOrStr (assocGet mp (jsToLower email)) (jsToLower email)

/-- The `nameCounts` update of one full-identity iteration (lines 149–156):
bump `nameCounts[key][name]`. -/
def fullStepNames (ncounts : NameCounts) (key name : String) : NameCounts :=
  assocSet ncounts key
    (assocSet ((assocGet ncounts key).getD []) name
      ((assocGet ((assocGet ncounts key).getD []) name).getD 0 + 1))

/-- The `contributorsMap` update of one full-identity iteration (lines
158–173): increment an existing record, or create one whose stored email is
`mappedEmail || email` — the raw email when no alias rule applies. -/
def fullStepMap (mp : List (String × String)) (cmap : ContribMap)
    (name email : String) : ContribMap :=
  match assocGet cmap (fullKey mp email) with
  | some existing =>
    assocSet cmap (fullKey mp email)
      { existing with commits := existing.commits + 1 }
  | none =>
    assocSet cmap (fullKey mp email)
      { name := name, email := jsOrStr (assocGet mp (jsToLower email)) email,
        commits := 1, maxIndividualCommits := 1 }

/-- One iteration of the full-identity loop (lines 135–174) over a
`"name|email"` log line, updating `contributorsMap` and `nameCounts`. -/
def fullStep (mp : List (String × String)) (st : ContribMap × NameCounts)
    (line : String) : ContribMap × NameCounts :=
  if strEmpty (jsTrim line) then st
  else if strEmpty ((jsSplitChar '|' line).getD 0 "") ||
      strEmpty ((jsSplitChar '|' line).getD 1 "") then st
  else
    (fullStepMap mp st.1 ((jsSplitChar '|' line).getD 0 "")
        ((jsSplitChar '|' line).getD 1 ""),
      fullStepNames st.2
        (fullKey mp ((jsSplitChar '|' line).getD 1 ""))
        ((jsSplitChar '|' line).getD 0 ""))

/-- Lines 180–188: scan a name-frequency table for the name with strictly
the most occurrences; the first name reaching the maximum wins. -/
def mostFrequentName (dflt : String) (nm : List (String × Nat)) : String :=
  (nm.foldl (fun acc p => if p.2 > acc.2 then p else acc) (dflt, 0)).1

/-- The second pass of the full-identity mode (lines 177–194): replace each
record's name by the most frequent observed name for its email. -/
def applyNameCounts (cmap : ContribMap) (ncounts : NameCounts) : ContribMap :=
  ncounts.foldl
    (fun acc p =>
      match assocGet acc p.1 with
      | some existing =>
        assocSet acc p.1 { existing with name := mostFrequentName existing.name p.2 }
      | none => acc)
    cmap

/-- Full-identity aggregation over the `git log` identity lines. -/
def fullAggregate (mp : List (String × String)) (lines : List String) :
    ContribMap × NameCounts :=
  lines.foldl (fullStep mp) ([], [])

/-- The full-identity `contributorsMap` after both passes. -/
def fullPhase (mp : List (String × String)) (lines : List String) : ContribMap :=
  let st := fullAggregate mp lines
  applyNameCounts st.1 st.2

/-- One iteration of the summary-mode loop (lines 219–247), consuming a
`(name, commits, email)` triple as produced by the shortlog match and the
per-author email lookup (both at the external-collaborator boundary). -/
def summaryStep (cmap : ContribMap) (t : String × Nat × String) : ContribMap :=
  match assocGet cmap (jsToLower t.2.2) with
  | some existing =>
    if t.2.1 > existing.maxIndividualCommits then
      assocSet cmap (jsToLower t.2.2)
        { name := t.1, email := t.2.2, commits := existing.commits + t.2.1,
          maxIndividualCommits := t.2.1 }
    else
      assocSet cmap (jsToLower t.2.2)
        { existing with commits := existing.commits + t.2.1 }
  | none =>
    assocSet cmap (jsToLower t.2.2)
      { name := t.1, email := t.2.2, commits := t.2.1,
        maxIndividualCommits := t.2.1 }

/-- Summary-mode `contributorsMap`. -/
def summaryAggregate (ts : List (String × Nat × String)) : ContribMap :=
  ts.foldl summaryStep []

/-- Strip the helper field (lines 251–255). -/
def stripRec (r : ContribRec) : RepoContributor :=
  { name := r.name, email := r.email, commits := r.commits }

/-- `contributors.sort((a, b) => b.commits - a.commits)`: ECMAScript sort is
stable, so a later element passes every earlier element with ≥ commits. -/
def insertByCommits (x : RepoContributor) :
    List RepoContributor → List RepoContributor
  | [] => [x]
  | y :: ys =>
    if x.commits ≤ y.commits then y :: insertByCommits x ys
    else x :: y :: ys

def sortByCommitsDesc (l : List RepoContributor) : List RepoContributor :=
  l.foldl (fun acc x => insertByCommits x acc) []

/-- Lines 251–257: map the accumulated records to `RepoContributor`s (in
`Map` insertion order) and sort by commit count descending. -/
def finalizeContributors (cmap : ContribMap) : List RepoContributor :=
  sortByCommitsDesc ((cmap.map Prod.snd).map stripRec)

/-- The full-identity (mailmap) branch of `getContributors`, from the alias
map and the `"%aN|%aE"` log text. -/
def fullContributors (mp : List (String × String)) (logOutput : String) :
    List RepoContributor :=
  finalizeContributors
    (fullPhase mp (jsSplitChar '\n' (jsTrim logOutput)))

/-- The summary (shortlog) branch of `getContributors`. -/
def summaryContributors (ts : List (String × Nat × String)) :
    List RepoContributor :=
  finalizeContributors (summaryAggregate ts)

/-- Keep-first deduplication: the key sequence of a JS `Map` in insertion
order, as a function of the inserted keys. -/
def firstOccurs (l : List String) : List String :=
  l.foldl (fun acc k => if acc.contains k then acc else acc ++ [k]) []

/-- The aggregation key contributed by one full-identity log line (`none`
when the line is skipped: blank, or missing name/email field). -/
def fullLineKey (mp : List (String × String)) (line : String) :
    Option String :=
  if strEmpty (jsTrim line) then none
  else if strEmpty ((jsSplitChar '|' line).getD 0 "") ||
      strEmpty ((jsSplitChar '|' line).getD 1 "") then none
  else some (fullKey mp ((jsSplitChar '|' line).getD 1 ""))

/-! ## Branch-membership resolver (`getCommits` post-pass, lines 444–485) -/

/-- `line.replace(/^\*\s*/, "")`. -/
def stripStar (s : String) : String :=
  match s.data with
  | '*' :: rest => ⟨rest.dropWhile isWs⟩
  | _ => s

/-- `replace(/^remotes\//, "")`. -/
def stripRemotes (s : String) : String :=
  if strStartsWith "remotes/" s then strDropChars s 8 else s

/-- Lines 461–466: clean one line of `git branch -a --contains` output. -/
def cleanContainsLine (line : String) : String :=
  stripRemoteHead (stripRemotes (jsTrim (stripStar line)))

/-- Lines 457–475: collect cleaned branch names from the raw query output,
skipping blanks and `HEAD`-refs and deduplicating. -/
def parseContainsOutput (out : String) : List String :=
  (jsSplitChar '\n' (jsTrim out)).foldl
    (fun acc line =>
      if strEmpty (jsTrim line) then acc
      else
        let branch := cleanContainsLine line
        if !strEmpty branch && !(strStartsWith "HEAD" branch) &&
            !(acc.contains branch) then
          acc ++ [branch]
        else acc)
    []

/-- `[...new Set([...a, ...b])]` keeps the first occurrence of each name. -/
def dedupKeepFirst (l : List String) : List String :=
  l.foldl (fun acc s => if acc.contains s then acc else acc ++ [s]) []

/-- Resolution for one commit (lines 446–484): `query` returns the raw
`git branch -a --contains` output, or `none` when the call throws; on
failure the commit is returned unchanged. -/
def resolveOne (query : String → Option String) (c : Commit) : Commit :=
  if strEmpty c.hash then c
  else
    match query c.hash with
    | none => c
    | some out =>
      { c with branches := dedupKeepFirst (c.branches ++ parseContainsOutput out) }

/-- The `for (const commit of commits)` resolution loop. -/
def resolveAll (query : String → Option String) : List Commit → List Commit
  | [] => []
  | c :: rest => resolveOne query c :: resolveAll query rest

/-- A sample sealed commit with a decoration-derived branch set, used to
instantiate the resolver theorems. -/
def sampleCommit : Commit :=
  { hash := "h1", author := "a", email := "e", date := "d", message := "m",
    filesChanged := 0, insertions := 0, deletions := 0, files := [],
    branches := ["main"] }

/-! ## Parser structure lemmas -/

theorem jsOrStr_none (d : String) : jsOrStr none d = d := rfl

theorem jsOrStr_some (s d : String) :
    jsOrStr (some s) d = if strEmpty s then d else s := rfl

theorem stepBody_preserves (line : String) (st : ParseState) :
    (stepBody line st).currentCommit = st.currentCommit ∧
      (stepBody line st).commits = st.commits ∧
      (stepBody line st).pending = st.pending := by
  unfold stepBody
  split
  · split
    · split
      · exact ⟨rfl, rfl, rfl⟩
      · exact ⟨rfl, rfl, rfl⟩
    · exact ⟨rfl, rfl, rfl⟩
  · exact ⟨rfl, rfl, rfl⟩

theorem seal_hashes (st : ParseState) :
    (sealIfComplete st).map Commit.hash =
      st.commits.map Commit.hash ++ openHashes st := by
  unfold sealIfComplete openHashes
  split
  · simp
  · split
    · simp
    · simp

theorem seal_none (st : ParseState) (h : st.currentCommit = none) :
    sealIfComplete st = st.commits := by
  unfold sealIfComplete
  rw [h]

theorem touchLast_hashes (n : Nat) (f : Commit → Commit)
    (hf : ∀ c, (f c).hash = c.hash) (l : List Commit) :
    (touchLast n f l).map Commit.hash = l.map Commit.hash := by
  unfold touchLast
  rw [List.map_append, List.map_map]
  have hcomp : Commit.hash ∘ f = Commit.hash := funext hf
  rw [hcomp, ← List.map_append, List.take_append_drop]

theorem fixPending_hashes (st : ParseState) :
    (fixPending st).map Commit.hash = st.commits.map Commit.hash :=
  touchLast_hashes st.pending (fun c => { c with files := st.files })
    (fun _ => rfl) st.commits

theorem finish_hashes (st : ParseState) :
    (finishScan st).map Commit.hash =
      st.commits.map Commit.hash ++ openHashes st := by
  unfold finishScan
  rw [seal_hashes]
  show (fixPending st).map Commit.hash ++
      openHashes { st with commits := fixPending st } = _
  rw [fixPending_hashes]
  rfl

theorem stepLine_header (st : ParseState) (line : String)
    (hl : line.data.contains '|' = true) :
    stepLine st line = stepHeader line st := by
  unfold stepLine; rw [hl]; rfl

theorem stepLine_body (st : ParseState) (line : String)
    (hl : line.data.contains '|' = false) :
    stepLine st line = stepBody line st := by
  unfold stepLine; rw [hl]; rfl

theorem stepHeader_valid (line : String) (st : ParseState)
    (hv : validHeaderStart line = true) :
    stepHeader line st =
      { currentCommit := some (headerOpen line),
        filesChanged := 0, insertions := 0, deletions := 0, files := [],
        pending := 0, commits := finishScan st } := by
  unfold validHeaderStart at hv
  simp only [Bool.and_eq_true, decide_eq_true_eq] at hv
  unfold stepHeader
  rw [if_pos hv.1.1.1.1, hv.1.1.1.2, hv.1.1.2, hv.1.2, hv.2]
  rfl

theorem stepHeader_invalid (line : String) (st : ParseState)
    (hv : validHeaderStart line = false) :
    stepHeader line st =
      { st with
        commits := sealIfComplete st,
        pending := st.pending + sealCount st } := by
  unfold stepHeader
  by_cases h5 : (headerParts line).length ≥ 5
  · unfold validHeaderStart at hv
    rw [decide_eq_true h5, Bool.true_and] at hv
    rw [if_pos h5, hv]
    rfl
  · rw [if_neg h5]

/-- Complete headers open a commit that will pass the sealing guard. -/
theorem openComplete_headerOpen (line : String)
    (hc : isCompleteHeader line = true) :
    openComplete (headerOpen line) = true := by
  unfold isCompleteHeader validHeaderStart at hc
  simp only [Bool.and_eq_true, decide_eq_true_eq] at hc
  unfold openComplete headerOpen
  simp only [Bool.and_eq_true]
  exact ⟨⟨⟨⟨hc.1.1.1.1.2, hc.1.1.1.2⟩, hc.1.1.2⟩, hc.1.2⟩, hc.2⟩

/-- The scan invariant behind C1 and C3: when every header-looking line is
a complete header, the sealed hash sequence is exactly the header hashes in
order (on top of whatever the start state already held). -/
theorem runFold_hashes (lines : List String) :
    ∀ st : ParseState,
      (∀ l ∈ lines, l.data.contains '|' = true → isCompleteHeader l = true) →
      (finishScan (lines.foldl stepLine st)).map Commit.hash =
        st.commits.map Commit.hash ++ openHashes st ++
          ((lines.filter (fun l => l.data.contains '|')).map headerHash) := by
  induction lines with
  | nil =>
    intro st _
    simpa using finish_hashes st
  | cons l rest ih =>
    intro st h
    have hrest : ∀ x ∈ rest, x.data.contains '|' = true → isCompleteHeader x = true :=
      fun x hx => h x (List.mem_cons_of_mem _ hx)
    rw [List.foldl_cons]
    by_cases hl : l.data.contains '|' = true
    · have hc : isCompleteHeader l = true := h l (List.mem_cons_self _ _) hl
      have hv : validHeaderStart l = true := by
        unfold isCompleteHeader at hc
        exact (Bool.and_eq_true _ _ |>.mp hc).1
      rw [stepLine_header st l hl, stepHeader_valid l st hv, ih _ hrest]
      have hopen : openHashes
          { currentCommit := some (headerOpen l),
            filesChanged := 0, insertions := 0, deletions := 0, files := [],
            pending := 0, commits := finishScan st } = [headerHash l] := by
        unfold openHashes
        simp only [openComplete_headerOpen l hc, if_true]
        rfl
      rw [hopen]
      simp only [List.filter_cons, hl, if_true, List.map_cons]
      rw [finish_hashes st]
      simp [List.append_assoc]
    · have hl2 : l.data.contains '|' = false := Bool.eq_false_iff.mpr hl
      rw [stepLine_body st l hl2, ih _ hrest]
      have hp := stepBody_preserves l st
      have hopen : openHashes (stepBody l st) = openHashes st := by
        unfold openHashes; rw [hp.1]
      rw [hopen, hp.2.1]
      simp only [List.filter_cons, hl2]
      simp

/-! ## Concrete scenario theorems and counterexamples -/

/-- C4: the log text with header
`abc123|Jane|jane@x.com|2024-01-01T00:00:00Z|fix bug|HEAD -> main, origin/main`
followed by the body line `3\t1\tfile.ts` parses to exactly one Commit with
hash `abc123`, insertions 3, deletions 1, filesChanged 1, and branch set
exactly `["main"]` (the `HEAD -> main` descriptor contributes `main`, and
`origin/main` is stripped to `main` and deduplicated). -/
theorem c4_scenario :
    parseCommits
        "abc123|Jane|jane@x.com|2024-01-01T00:00:00Z|fix bug|HEAD -> main, origin/main\n3\t1\tfile.ts" =
      [{ hash := "abc123", author := "Jane", email := "jane@x.com",
         date := "2024-01-01T00:00:00Z", message := "fix bug",
         filesChanged := 1, insertions := 3, deletions := 1,
         files := [⟨"file.ts", 3, 1⟩], branches := ["main"] }] := by
  decide

/-- C1 counterexample: a header line with missing required fields (`bad|x`)
between two valid headers makes the parser seal the first commit twice, so
the hash `h1` occurs twice in one extraction result, refuting the claimed
uniqueness. -/
theorem c1_counterexample :
    (parseCommits "h1|a|a@x|d1|m1\nbad|x\nh2|a|a@x|d2|m2").map Commit.hash =
        ["h1", "h1", "h2"] ∧
      ((parseCommits "h1|a|a@x|d1|m1\nbad|x\nh2|a|a@x|d2|m2").map
          Commit.hash).count "h1" = 2 := by
  decide

/-- C2 counterexample: the file-change line `5\t7\tf.txt` following the
invalid header `bad|x` is not discarded — it is pushed onto the live
`currentFiles` array that both emissions of the still-open first commit
reference, so it appears in the `files` of both (while only the second
emission's numeric totals count it: insertions 5, deletions 7,
filesChanged 1). -/
theorem c2_counterexample :
    (parseCommits "h1|a|a@x|d1|m1\nbad|x\n5\t7\tf.txt\nh2|a|a@x|d2|m2").map
        (fun c => (c.hash, c.insertions, c.deletions, c.filesChanged,
          c.files.map CommitFile.path)) =
      [("h1", 0, 0, 0, ["f.txt"]), ("h1", 5, 7, 1, ["f.txt"]),
        ("h2", 0, 0, 0, [])] := by
  decide

/-- C3 counterexample: the binary-file marker line `-\t-\tfile.bin` is not
skipped: `parseInt("-") || 0` coerces both counts to 0 before the dead
`Number.isNaN` test, so the line adds a FileChange `("file.bin", 0, 0)` and
increments `filesChanged` to 1, refuting "adds no FileChange ... leaves
filesChanged unchanged". -/
theorem c3_counterexample :
    parseCommits "h|a|a@x|d|m\n-\t-\tfile.bin" =
      [{ hash := "h", author := "a", email := "a@x", date := "d",
         message := "m", filesChanged := 1, insertions := 0, deletions := 0,
         files := [⟨"file.bin", 0, 0⟩], branches := [] }] := by
  decide

/-- C5 counterexample: with chained alias rules (`a@x.com → b@x.com` and
`b@x.com → c@x.com`) canonicalization is not idempotent:
`canonicalize (canonicalize "a@x.com")` is `c@x.com`, not `b@x.com`. -/
theorem c5_counterexample :
    canonicalize (parseMailmap "<b@x.com> <a@x.com>\n<c@x.com> <b@x.com>")
        "a@x.com" = "b@x.com" ∧
      canonicalize (parseMailmap "<b@x.com> <a@x.com>\n<c@x.com> <b@x.com>")
        (canonicalize (parseMailmap "<b@x.com> <a@x.com>\n<c@x.com> <b@x.com>")
          "a@x.com") = "c@x.com" ∧
      ("c@x.com" : String) ≠ "b@x.com" := by
  decide

/-- C6 counterexample: in full-identity mode with no applicable alias rule,
the raw email `A@X.COM` is aggregated under the lowercase key `a@x.com`,
but the returned Contributor's email field is the raw `A@X.COM`, not the
lowercase aggregation key. -/
theorem c6_counterexample :
    (fullPhase [] ["Alice|A@X.COM"]).map Prod.fst = ["a@x.com"] ∧
      fullContributors [] "Alice|A@X.COM" =
        [{ name := "Alice", email := "A@X.COM", commits := 1 }] ∧
      ("A@X.COM" : String) ≠ "a@x.com" := by
  decide

/-- C7: summary-mode aggregation of
`[("Alice", 5, "a@x.com"), ("alice-alt", 2, "A@X.COM")]` merges the two
entries by case-folded email into exactly one Contributor
`{name := "Alice", email := "a@x.com", commits := 7}`, keeping the name of
the entry with the larger individual contribution. -/
theorem c7_summary_merge :
    summaryContributors [("Alice", 5, "a@x.com"), ("alice-alt", 2, "A@X.COM")] =
      [{ name := "Alice", email := "a@x.com", commits := 7 }] := by
  decide

/-! ## Amended parser claims -/

/-- C1 (amended): when every header-looking line of the input is a complete
header, the emitted hash sequence is exactly the sequence of header hashes
in input order, so each commit is sealed exactly once; in particular
distinct input hashes give pairwise-distinct emitted hashes.  (As stated,
with an invalid header between two valid ones, the claim fails: the open
commit is sealed again — see the counterexample.) -/
theorem c1_amended_unique_hashes (output : String)
    (h : ∀ l ∈ logLines output, l.data.contains '|' = true →
      isCompleteHeader l = true) :
    (parseCommits output).map Commit.hash =
        ((logLines output).filter (fun l => l.data.contains '|')).map headerHash ∧
      ((((logLines output).filter (fun l => l.data.contains '|')).map
          headerHash).Nodup →
        ((parseCommits output).map Commit.hash).Nodup) := by
  have hmain := runFold_hashes (logLines output) initState h
  have h0 : (parseCommits output).map Commit.hash =
      ((logLines output).filter (fun l => l.data.contains '|')).map headerHash := by
    unfold parseCommits runLines
    rw [hmain]
    rfl
  exact ⟨h0, fun hnd => h0 ▸ hnd⟩

theorem c1_amended_unique_hashes_witness :
    ((parseCommits "h1|a|a@x|d|m1\nh2|b|b@x|d|m2").map Commit.hash).Nodup :=
  (c1_amended_unique_hashes "h1|a|a@x|d|m1\nh2|b|b@x|d|m2" (by decide)).2
    (by decide)

/-- State of the scan after a run of non-header lines: `currentCommit` and
`commits` are untouched (only the accumulators change). -/
theorem noHeader_fold_state (body : List String) :
    ∀ st : ParseState, (∀ l ∈ body, l.data.contains '|' = false) →
      (body.foldl stepLine st).currentCommit = st.currentCommit ∧
        (body.foldl stepLine st).commits = st.commits ∧
        (body.foldl stepLine st).pending = st.pending := by
  induction body with
  | nil => intro st _; exact ⟨rfl, rfl, rfl⟩
  | cons l rest ih =>
    intro st h
    rw [List.foldl_cons, stepLine_body st l (h l (List.mem_cons_self _ _))]
    have hr := ih (stepBody l st) (fun x hx => h x (List.mem_cons_of_mem _ hx))
    have hp := stepBody_preserves l st
    exact ⟨hr.1.trans hp.1, hr.2.1.trans hp.2.1, hr.2.2.trans hp.2.2⟩

/-- C2 (amended): an invalid header line, together with the file-change
lines that follow it up to the next valid header, is discarded provided no
commit is open when it is read (as at the start of the stream): parsing
then gives the same result as if those lines were absent.  (With a commit
open, the previous commit is sealed again and the following file-change
lines land in the shared live file array, so they appear in the `files` of
both emissions of that commit — see the counterexample.) -/
theorem c2_amended_discard (output bad h : String) (body rest : List String)
    (hlog : logLines output = bad :: (body ++ h :: rest))
    (hbad1 : bad.data.contains '|' = true)
    (hbad2 : validHeaderStart bad = false)
    (hbody : ∀ l ∈ body, l.data.contains '|' = false)
    (hh1 : h.data.contains '|' = true)
    (hh2 : validHeaderStart h = true) :
    parseCommits output = runLines (h :: rest) := by
  unfold parseCommits runLines
  rw [hlog, List.foldl_cons, stepLine_header initState bad hbad1,
    stepHeader_invalid bad initState hbad2]
  have e1 :
      ({ initState with
          commits := sealIfComplete initState,
          pending := initState.pending + sealCount initState } :
        ParseState) = initState := rfl
  rw [e1, List.foldl_append, List.foldl_cons, List.foldl_cons]
  have hst := noHeader_fold_state body initState hbody
  rw [stepLine_header _ h hh1, stepLine_header initState h hh1,
    stepHeader_valid h _ hh2, stepHeader_valid h initState hh2]
  have hfix : fixPending (body.foldl stepLine initState) = [] := by
    unfold fixPending touchLast
    rw [hst.2.1]
    have hic : initState.commits = ([] : List Commit) := rfl
    rw [hic]
    simp
  have hfin : finishScan (body.foldl stepLine initState) = [] := by
    unfold finishScan
    exact (seal_none
      { body.foldl stepLine initState with
        commits := fixPending (body.foldl stepLine initState) }
      hst.1).trans hfix
  rw [hfin]
  rfl

theorem c2_amended_discard_witness :
    parseCommits "bad|x\n1\t2\tf.txt\nh1|a|a@x|d|m" =
      runLines ["h1|a|a@x|d|m"] :=
  c2_amended_discard "bad|x\n1\t2\tf.txt\nh1|a|a@x|d|m" "bad|x" "h1|a|a@x|d|m"
    ["1\t2\tf.txt"] [] (by decide) (by decide) (by decide) (by decide)
    (by decide) (by decide)

/-- C3 (amended): a file-change line with non-numeric counts is not
skipped — `parseInt(...) || 0` turns each non-numeric count into 0, so the
line adds a FileChange with insertions 0 and deletions 0 and increments
`filesChanged`, leaving the insertion and deletion totals unchanged; and
the number of emitted Commits equals the number of complete headers,
regardless of interleaved file-change lines. -/
theorem c3_amended_zero_counts :
    (∀ (st : ParseState) (line p0 p1 : String) (rest : List String),
        line.data.contains '|' = false →
        jsWords line = p0 :: p1 :: rest →
        strEmpty p0 = false → strEmpty p1 = false →
        jsParseInt p0 = none → jsParseInt p1 = none →
        strEmpty (joinSpace rest) = false →
        stepLine st line =
          { st with filesChanged := st.filesChanged + 1,
                    files := st.files ++ [⟨joinSpace rest, 0, 0⟩] }) ∧
      (∀ output : String,
        (∀ l ∈ logLines output, l.data.contains '|' = true →
          isCompleteHeader l = true) →
        (parseCommits output).length =
          ((logLines output).filter (fun l => l.data.contains '|')).length) := by
  constructor
  · intro st line p0 p1 rest hl hw h0 h1 hp0 hp1 hf
    rw [stepLine_body st line hl]
    unfold stepBody
    rw [hw]
    have hz0 : jsNumOr0 p0 = 0 := by unfold jsNumOr0; rw [hp0]; rfl
    have hz1 : jsNumOr0 p1 = 0 := by unfold jsNumOr0; rw [hp1]; rfl
    simp only [h0, h1, hf, hz0, hz1, Bool.not_false, Bool.and_self, if_true]
    simp
  · intro output h
    have hmain := runFold_hashes (logLines output) initState h
    have h0 : (parseCommits output).map Commit.hash =
        ((logLines output).filter (fun l => l.data.contains '|')).map
          headerHash := by
      unfold parseCommits runLines
      rw [hmain]
      rfl
    have := congrArg List.length h0
    simpa using this

theorem c3_amended_zero_counts_witness :
    (stepLine initState "-\t-\tfile.bin").files = [⟨"file.bin", 0, 0⟩] ∧
      (parseCommits "h|a|a@x|d|m\n-\t-\tfile.bin").length = 1 := by
  constructor
  · have h := c3_amended_zero_counts.1 initState "-\t-\tfile.bin" "-" "-"
      ["file.bin"] (by decide) (by decide) (by decide) (by decide) (by decide)
      (by decide) (by decide)
    rw [h]
    decide
  · have h := c3_amended_zero_counts.2 "h|a|a@x|d|m\n-\t-\tfile.bin" (by decide)
    rw [h]
    decide

/-- C10: for every valid file-change body line, the emitted FileChange path
is the whitespace-separated tokens after the two count tokens rejoined with
single spaces (`parts.slice(2).join(" ")`); consequently a path containing
a tab or a run of spaces is emitted with each whitespace run collapsed to
one space, not verbatim. -/
theorem c10_path_joined (st : ParseState) (line p0 p1 : String)
    (rest : List String)
    (hl : line.data.contains '|' = false)
    (hw : jsWords line = p0 :: p1 :: rest)
    (h0 : strEmpty p0 = false) (h1 : strEmpty p1 = false)
    (hf : strEmpty (joinSpace rest) = false) :
    (stepLine st line).files =
      st.files ++ [⟨joinSpace rest, jsNumOr0 p0, jsNumOr0 p1⟩] := by
  rw [stepLine_body st line hl]
  unfold stepBody
  rw [hw]
  simp only [h0, h1, hf, Bool.not_false, Bool.and_self, if_true]

/-! ## Identity normalizer lemmas -/

theorem lcChar_idem (c : Char) : lcChar (lcChar c) = lcChar c := by
  unfold lcChar
  by_cases h : 65 ≤ c.toNat ∧ c.toNat ≤ 90
  · rw [if_pos h]
    have hv : (Char.ofNat (c.toNat + 32)).toNat = c.toNat + 32 := by
      obtain ⟨h1, h2⟩ := h
      set n := c.toNat with hn
      interval_cases n <;> decide
    rw [if_neg]
    rw [hv]
    omega
  · rw [if_neg h, if_neg h]

theorem mapLc_idem (l : List Char) : (l.map lcChar).map lcChar = l.map lcChar := by
  induction l with
  | nil => rfl
  | cons c t ih => simp only [List.map_cons, ih, lcChar_idem]

theorem jsToLower_idem (s : String) : jsToLower (jsToLower s) = jsToLower s :=
  congrArg String.mk (mapLc_idem s.data)

theorem strEmpty_toLower (s : String) : strEmpty (jsToLower s) = strEmpty s := by
  unfold strEmpty jsToLower
  cases s.data <;> rfl

theorem assocGet_mem {α : Type} (m : List (String × α)) (k : String) (v : α)
    (h : assocGet m k = some v) : (k, v) ∈ m := by
  induction m with
  | nil => simp [assocGet] at h
  | cons p rest ih =>
    obtain ⟨k0, v0⟩ := p
    unfold assocGet at h
    by_cases hk : k0 = k
    · rw [if_pos hk] at h
      injection h with hv
      subst hk
      subst hv
      exact List.mem_cons_self _ _
    · rw [if_neg hk] at h
      exact List.mem_cons_of_mem _ (ih h)

theorem assocSet_forall {α : Type} (P : String × α → Prop)
    (m : List (String × α)) (k : String) (v : α)
    (hm : ∀ p ∈ m, P p) (hv : P (k, v)) :
    ∀ p ∈ assocSet m k v, P p := by
  induction m with
  | nil =>
    intro p hp
    simp only [assocSet, List.mem_singleton] at hp
    exact hp ▸ hv
  | cons q rest ih =>
    obtain ⟨k0, v0⟩ := q
    intro p hp
    unfold assocSet at hp
    by_cases hk : k0 = k
    · rw [if_pos hk] at hp
      rcases List.mem_cons.mp hp with h | h
      · exact h ▸ (hk ▸ hv)
      · exact hm p (List.mem_cons_of_mem _ h)
    · rw [if_neg hk] at hp
      rcases List.mem_cons.mp hp with h | h
      · exact h ▸ hm _ (List.mem_cons_self _ _)
      · exact ih (fun q hq => hm q (List.mem_cons_of_mem _ hq)) p h

/-- The inner alias-insertion fold of one mailmap line preserves the
"values are lowercase and nonempty" invariant. -/
theorem mailmapFold_inv (canonLower : String)
    (hLow : jsToLower canonLower = canonLower)
    (hNe : strEmpty canonLower = false) (rest : List String) :
    ∀ acc : List (String × String),
      (∀ p ∈ acc, jsToLower p.2 = p.2 ∧ strEmpty p.2 = false) →
      ∀ p ∈ rest.foldl
        (fun acc email =>
          if strEmpty email then acc
          else assocSet acc (jsToLower email) canonLower) acc,
        jsToLower p.2 = p.2 ∧ strEmpty p.2 = false := by
  induction rest with
  | nil => intro acc hacc; exact hacc
  | cons email t ih =>
    intro acc hacc
    rw [List.foldl_cons]
    by_cases he : strEmpty email = true
    · rw [if_pos he]
      exact ih acc hacc
    · rw [if_neg he]
      exact ih _ (assocSet_forall _ acc (jsToLower email) canonLower hacc
        ⟨hLow, hNe⟩)

/-- Every value stored by `parseMailmap` is lowercase and nonempty. -/
theorem parseMailmap_inv (content : String) :
    ∀ p ∈ parseMailmap content, jsToLower p.2 = p.2 ∧ strEmpty p.2 = false := by
  unfold parseMailmap
  have main : ∀ (lines : List String) (m : List (String × String)),
      (∀ p ∈ m, jsToLower p.2 = p.2 ∧ strEmpty p.2 = false) →
      ∀ p ∈ lines.foldl mailmapLine m, jsToLower p.2 = p.2 ∧
        strEmpty p.2 = false := by
    intro lines
    induction lines with
    | nil => intro m hm; exact hm
    | cons line t ih =>
      intro m hm
      rw [List.foldl_cons]
      refine ih _ ?_
      unfold mailmapLine
      split
      · exact hm
      · split
        · split
          · exact hm
          · rename_i hcanon
            exact mailmapFold_inv
              (jsToLower ((angleTokens (jsTrim line).data).headD ""))
              (jsToLower_idem _)
              (by rw [strEmpty_toLower]; exact Bool.eq_false_iff.mpr hcanon)
              _ m hm
        · exact hm
  exact main _ [] (by intro p hp; simp at hp)

/-- `canonicalize` always rewrites to the explicit lookup form. -/
theorem canonicalize_eval (m : List (String × String)) (x : String) :
    canonicalize m x = jsOrStr (assocGet m (jsToLower x)) (jsToLower x) := rfl

/-- The canonical image of any email under a parsed alias map is already
lowercase. -/
theorem canonicalize_lower (content e : String) :
    jsToLower (canonicalize (parseMailmap content) e) =
      canonicalize (parseMailmap content) e := by
  rw [canonicalize_eval]
  cases h : assocGet (parseMailmap content) (jsToLower e) with
  | none => rw [jsOrStr_none]; exact jsToLower_idem e
  | some s =>
    rw [jsOrStr_some]
    by_cases hs : strEmpty s = true
    · rw [if_pos hs]
      exact jsToLower_idem e
    · rw [if_neg hs]
      exact (parseMailmap_inv content (jsToLower e, s)
        (assocGet_mem _ _ _ h)).1

/-- C5 (amended): canonicalization is a deterministic function of the raw
email, and it is idempotent whenever the canonical image is not itself an
aliased email in the map; when alias rules chain one canonical email to
another, a second application can move further (see the counterexample). -/
theorem c5_amended_idempotent (content e : String)
    (h : assocGet (parseMailmap content)
      (canonicalize (parseMailmap content) e) = none) :
    canonicalize (parseMailmap content)
        (canonicalize (parseMailmap content) e) =
      canonicalize (parseMailmap content) e := by
  rw [canonicalize_eval (parseMailmap content)
      (canonicalize (parseMailmap content) e),
    canonicalize_lower content e, h]
  rfl

theorem c5_amended_idempotent_witness :
    canonicalize (parseMailmap "<b@x.com> <a@x.com>")
        (canonicalize (parseMailmap "<b@x.com> <a@x.com>") "A@X.COM") =
      canonicalize (parseMailmap "<b@x.com> <a@x.com>") "A@X.COM" :=
  c5_amended_idempotent "<b@x.com> <a@x.com>" "A@X.COM" (by decide)

/-! ## Contributor aggregation lemmas -/

theorem summaryStep_key_inv (cmap : ContribMap) (t : String × Nat × String)
    (hm : ∀ p ∈ cmap, jsToLower p.2.email = p.1) :
    ∀ p ∈ summaryStep cmap t, jsToLower p.2.email = p.1 := by
  unfold summaryStep
  cases h : assocGet cmap (jsToLower t.2.2) with
  | some existing =>
    dsimp only
    split
    · exact assocSet_forall _ _ _ _ hm rfl
    · exact assocSet_forall _ _ _ _ hm
        (hm (jsToLower t.2.2, existing) (assocGet_mem cmap _ existing h))
  | none =>
    dsimp only
    exact assocSet_forall _ _ _ _ hm rfl

theorem fullStepMap_key_inv (mp : List (String × String)) (cmap : ContribMap)
    (name email : String)
    (hmp : ∀ p ∈ mp, jsToLower p.2 = p.2 ∧ strEmpty p.2 = false)
    (hm : ∀ p ∈ cmap, jsToLower p.2.email = p.1) :
    ∀ p ∈ fullStepMap mp cmap name email, jsToLower p.2.email = p.1 := by
  unfold fullStepMap
  cases h : assocGet cmap (fullKey mp email) with
  | some existing =>
    dsimp only
    exact assocSet_forall _ _ _ _ hm
      (hm (fullKey mp email, existing) (assocGet_mem cmap _ existing h))
  | none =>
    dsimp only
    refine assocSet_forall _ _ _ _ hm ?_
    show jsToLower (jsOrStr (assocGet mp (jsToLower email)) email) =
      fullKey mp email
    unfold fullKey
    cases hg : assocGet mp (jsToLower email) with
    | none => rw [jsOrStr_none, jsOrStr_none]
    | some s =>
      rw [jsOrStr_some, jsOrStr_some]
      by_cases hs : strEmpty s = true
      · rw [if_pos hs, if_pos hs]
      · rw [if_neg hs, if_neg hs]
        exact (hmp _ (assocGet_mem _ _ _ hg)).1

theorem fullFold_key_inv (mp : List (String × String))
    (hmp : ∀ p ∈ mp, jsToLower p.2 = p.2 ∧ strEmpty p.2 = false)
    (lines : List String) :
    ∀ st : ContribMap × NameCounts,
      (∀ p ∈ st.1, jsToLower p.2.email = p.1) →
      ∀ p ∈ (lines.foldl (fullStep mp) st).1, jsToLower p.2.email = p.1 := by
  induction lines with
  | nil => intro st h; exact h
  | cons line t ih =>
    intro st h
    rw [List.foldl_cons]
    refine ih _ ?_
    unfold fullStep
    split
    · exact h
    · split
      · exact h
      · exact fullStepMap_key_inv mp st.1 _ _ hmp h

theorem applyNameCounts_key_inv (ncounts : NameCounts) :
    ∀ cmap : ContribMap, (∀ p ∈ cmap, jsToLower p.2.email = p.1) →
      ∀ p ∈ applyNameCounts cmap ncounts, jsToLower p.2.email = p.1 := by
  unfold applyNameCounts
  induction ncounts with
  | nil => intro cmap h; exact h
  | cons q t ih =>
    intro cmap h
    rw [List.foldl_cons]
    refine ih _ ?_
    dsimp only
    cases hq : assocGet cmap q.1 with
    | some existing =>
      exact assocSet_forall _ _ _ _ h
        (h (q.1, existing) (assocGet_mem cmap q.1 existing hq))
    | none => exact h

/-- C6 (amended): in both aggregation modes, every aggregated record's
email case-folds to its aggregation key: the stored email is the mapped
canonical email (already lowercase) when an alias rule applied, and
otherwise the first-encountered raw email verbatim — possibly with
uppercase characters, in which case it differs from the lowercase key (see
the counterexample). -/
theorem c6_amended_email_key :
    (∀ (content : String) (lines : List String) (p : String × ContribRec),
        p ∈ fullPhase (parseMailmap content) lines →
        jsToLower p.2.email = p.1) ∧
      (∀ (ts : List (String × Nat × String)) (p : String × ContribRec),
        p ∈ summaryAggregate ts → jsToLower p.2.email = p.1) := by
  constructor
  · intro content lines p hp
    unfold fullPhase fullAggregate at hp
    exact applyNameCounts_key_inv _ _
      (fullFold_key_inv (parseMailmap content) (parseMailmap_inv content)
        lines ([], []) (by intro q hq; simp at hq)) p hp
  · intro ts p hp
    unfold summaryAggregate at hp
    have main : ∀ (l : List (String × Nat × String)) (m : ContribMap),
        (∀ q ∈ m, jsToLower q.2.email = q.1) →
        ∀ q ∈ l.foldl summaryStep m, jsToLower q.2.email = q.1 := by
      intro l
      induction l with
      | nil => intro m hm; exact hm
      | cons t rest ih =>
        intro m hm
        rw [List.foldl_cons]
        exact ih _ (summaryStep_key_inv m t hm)
    exact main ts [] (by intro q hq; simp at hq) p hp

theorem c6_amended_email_key_witness :
    jsToLower "A@X.COM" = "a@x.com" ∧ jsToLower "B@Y.COM" = "b@y.com" :=
  ⟨c6_amended_email_key.1 "" ["Alice|A@X.COM"]
      ("a@x.com", ⟨"Alice", "A@X.COM", 1, 1⟩) (by decide),
    c6_amended_email_key.2 [("Bob", 3, "B@Y.COM")]
      ("b@y.com", ⟨"Bob", "B@Y.COM", 3, 3⟩) (by decide)⟩

theorem c10_path_joined_witness :
    (stepLine initState "3\t1\tmy\tfile  x.ts").files =
        [⟨"my file x.ts", 3, 1⟩] ∧
      ("my file x.ts" : String) ≠ "my\tfile  x.ts" := by
  constructor
  · have h := c10_path_joined initState "3\t1\tmy\tfile  x.ts" "3" "1"
      ["my", "file", "x.ts"] (by decide) (by decide) (by decide) (by decide)
      (by decide)
    rw [h]
    decide
  · decide

/-! ## Output ordering lemmas -/

theorem mem_insertByCommits (x z : RepoContributor)
    (l : List RepoContributor) :
    z ∈ insertByCommits x l ↔ z = x ∨ z ∈ l := by
  induction l with
  | nil => simp [insertByCommits]
  | cons y ys ih =>
    unfold insertByCommits
    by_cases h : x.commits ≤ y.commits
    · rw [if_pos h]
      simp only [List.mem_cons, ih]
      tauto
    · rw [if_neg h]
      simp only [List.mem_cons]

theorem pairwise_insertByCommits (x : RepoContributor)
    (l : List RepoContributor)
    (hl : l.Pairwise (fun a b => b.commits ≤ a.commits)) :
    (insertByCommits x l).Pairwise (fun a b => b.commits ≤ a.commits) := by
  induction l with
  | nil => simp [insertByCommits]
  | cons y ys ih =>
    rcases List.pairwise_cons.mp hl with ⟨hy, hys⟩
    unfold insertByCommits
    by_cases h : x.commits ≤ y.commits
    · rw [if_pos h]
      refine List.pairwise_cons.mpr ⟨?_, ih hys⟩
      intro z hz
      rcases (mem_insertByCommits x z ys).mp hz with rfl | hz2
      · exact h
      · exact hy z hz2
    · rw [if_neg h]
      refine List.pairwise_cons.mpr ⟨?_, hl⟩
      intro z hz
      rcases List.mem_cons.mp hz with rfl | hz2
      · omega
      · exact le_trans (hy z hz2) (by omega)

theorem sortFold_pairwise (l : List RepoContributor) :
    ∀ acc : List RepoContributor,
      acc.Pairwise (fun a b => b.commits ≤ a.commits) →
      (l.foldl (fun acc x => insertByCommits x acc) acc).Pairwise
        (fun a b => b.commits ≤ a.commits) := by
  induction l with
  | nil => intro acc h; exact h
  | cons x t ih =>
    intro acc h
    rw [List.foldl_cons]
    exact ih _ (pairwise_insertByCommits x acc h)

theorem filter_insertByCommits (x : RepoContributor) (n : Nat)
    (l : List RepoContributor)
    (hl : l.Pairwise (fun a b => b.commits ≤ a.commits)) :
    (insertByCommits x l).filter (fun r => r.commits == n) =
      if x.commits = n then l.filter (fun r => r.commits == n) ++ [x]
      else l.filter (fun r => r.commits == n) := by
  induction l with
  | nil =>
    by_cases h : x.commits = n <;>
      simp [insertByCommits, List.filter_cons, h]
  | cons y ys ih =>
    rcases List.pairwise_cons.mp hl with ⟨hy, hys⟩
    unfold insertByCommits
    by_cases h : x.commits ≤ y.commits
    · rw [if_pos h]
      rw [List.filter_cons, List.filter_cons, ih hys]
      by_cases hx : x.commits = n <;> by_cases hyn : y.commits = n <;>
        simp [hx, hyn]
    · rw [if_neg h]
      by_cases hx : x.commits = n
      · have hnil : (y :: ys).filter (fun r => r.commits == n) = [] := by
          rw [List.filter_eq_nil_iff]
          intro z hz
          simp only [beq_iff_eq]
          rcases List.mem_cons.mp hz with rfl | hz2
          · omega
          · have hzy := hy z hz2
            omega
        rw [List.filter_cons]
        simp [hx, hnil]
      · rw [List.filter_cons]
        simp [hx]

theorem sortFold_filter (n : Nat) (l : List RepoContributor) :
    ∀ acc : List RepoContributor,
      acc.Pairwise (fun a b => b.commits ≤ a.commits) →
      (l.foldl (fun acc x => insertByCommits x acc) acc).filter
          (fun r => r.commits == n) =
        acc.filter (fun r => r.commits == n) ++
          l.filter (fun r => r.commits == n) := by
  induction l with
  | nil => intro acc h; simp
  | cons x t ih =>
    intro acc h
    rw [List.foldl_cons, ih _ (pairwise_insertByCommits x acc h),
      filter_insertByCommits x n acc h, List.filter_cons]
    by_cases hx : x.commits = n
    · simp [hx]
    · simp [hx]

/-! ## Map key-order lemmas -/

theorem assocGet_none_fst {α : Type} (m : List (String × α)) (k : String)
    (h : assocGet m k = none) (w : α) :
    (assocSet m k w).map Prod.fst = m.map Prod.fst ++ [k] := by
  induction m with
  | nil => rfl
  | cons p rest ih =>
    obtain ⟨k0, v0⟩ := p
    unfold assocGet at h
    unfold assocSet
    by_cases hk : k0 = k
    · rw [if_pos hk] at h
      exact absurd h (by simp)
    · rw [if_neg hk] at h
      rw [if_neg hk]
      simp [ih h]

theorem assocGet_some_fst {α : Type} (m : List (String × α)) (k : String)
    (v : α) (h : assocGet m k = some v) (w : α) :
    (assocSet m k w).map Prod.fst = m.map Prod.fst := by
  induction m with
  | nil => simp [assocGet] at h
  | cons p rest ih =>
    obtain ⟨k0, v0⟩ := p
    unfold assocGet at h
    unfold assocSet
    by_cases hk : k0 = k
    · rw [if_pos hk]
      simp
    · rw [if_neg hk] at h
      rw [if_neg hk]
      simp [ih h]

theorem contains_fst_isSome {α : Type} (m : List (String × α)) (k : String) :
    (m.map Prod.fst).contains k = (assocGet m k).isSome := by
  induction m with
  | nil => rfl
  | cons p rest ih =>
    obtain ⟨k0, v0⟩ := p
    unfold assocGet
    by_cases hk : k0 = k
    · rw [if_pos hk]
      simp [List.contains_cons, hk]
    · rw [if_neg hk]
      simp only [List.map_cons, List.contains_cons, ih]
      have : (k == k0) = false := by
        simp only [beq_eq_false_iff_ne, ne_eq]
        exact fun hkk => hk hkk.symm
      rw [this, Bool.false_or]

theorem summaryStep_fst (cmap : ContribMap) (t : String × Nat × String) :
    (summaryStep cmap t).map Prod.fst =
      if (cmap.map Prod.fst).contains (jsToLower t.2.2) then
        cmap.map Prod.fst
      else cmap.map Prod.fst ++ [jsToLower t.2.2] := by
  unfold summaryStep
  rw [contains_fst_isSome]
  cases h : assocGet cmap (jsToLower t.2.2) with
  | some existing =>
    dsimp only
    split
    · rw [if_pos (by simp)]
      exact assocGet_some_fst _ _ _ h _
    · rw [if_pos (by simp)]
      exact assocGet_some_fst _ _ _ h _
  | none =>
    dsimp only
    rw [if_neg (by simp)]
    exact assocGet_none_fst _ _ h _

theorem summaryFold_fst (ts : List (String × Nat × String)) :
    ∀ m : ContribMap,
      (ts.foldl summaryStep m).map Prod.fst =
        (ts.map (fun t => jsToLower t.2.2)).foldl
          (fun acc k => if acc.contains k then acc else acc ++ [k])
          (m.map Prod.fst) := by
  induction ts with
  | nil => intro m; rfl
  | cons t rest ih =>
    intro m
    rw [List.foldl_cons, List.map_cons, List.foldl_cons, ih]
    congr 1
    exact summaryStep_fst m t

theorem fullStepMap_fst (mp : List (String × String)) (cmap : ContribMap)
    (name email : String) :
    (fullStepMap mp cmap name email).map Prod.fst =
      if (cmap.map Prod.fst).contains (fullKey mp email) then
        cmap.map Prod.fst
      else cmap.map Prod.fst ++ [fullKey mp email] := by
  unfold fullStepMap
  rw [contains_fst_isSome]
  cases h : assocGet cmap (fullKey mp email) with
  | some existing =>
    dsimp only
    rw [if_pos (by simp)]
    exact assocGet_some_fst _ _ _ h _
  | none =>
    dsimp only
    rw [if_neg (by simp)]
    exact assocGet_none_fst _ _ h _

theorem fullStep_skip (mp : List (String × String))
    (st : ContribMap × NameCounts) (line : String)
    (h : fullLineKey mp line = none) :
    fullStep mp st line = st := by
  unfold fullLineKey at h
  unfold fullStep
  split
  · rfl
  · rename_i h1
    rw [if_neg h1] at h
    split
    · rfl
    · rename_i h2
      rw [if_neg h2] at h
      exact absurd h (by simp)

theorem fullStep_key (mp : List (String × String))
    (st : ContribMap × NameCounts) (line k : String)
    (h : fullLineKey mp line = some k) :
    ((fullStep mp st line).1).map Prod.fst =
      if (st.1.map Prod.fst).contains k then st.1.map Prod.fst
      else st.1.map Prod.fst ++ [k] := by
  unfold fullLineKey at h
  unfold fullStep
  split
  · rename_i h1
    rw [if_pos h1] at h
    exact absurd h (by simp)
  · rename_i h1
    rw [if_neg h1] at h
    split
    · rename_i h2
      rw [if_pos h2] at h
      exact absurd h (by simp)
    · rename_i h2
      rw [if_neg h2] at h
      injection h with hk
      rw [← hk]
      exact fullStepMap_fst mp st.1 _ _

theorem fullFold_fst (mp : List (String × String)) (lines : List String) :
    ∀ st : ContribMap × NameCounts,
      ((lines.foldl (fullStep mp) st).1).map Prod.fst =
        (lines.filterMap (fullLineKey mp)).foldl
          (fun acc k => if acc.contains k then acc else acc ++ [k])
          (st.1.map Prod.fst) := by
  induction lines with
  | nil => intro st; rfl
  | cons line t ih =>
    intro st
    rw [List.foldl_cons, ih]
    cases hk : fullLineKey mp line with
    | none =>
      rw [fullStep_skip mp st line hk]
      simp only [List.filterMap_cons, hk]
    | some k =>
      simp only [List.filterMap_cons, hk, List.foldl_cons]
      congr 1
      exact fullStep_key mp st line k hk

theorem applyNameCounts_fst (ncounts : NameCounts) :
    ∀ cmap : ContribMap,
      (applyNameCounts cmap ncounts).map Prod.fst = cmap.map Prod.fst := by
  unfold applyNameCounts
  induction ncounts with
  | nil => intro cmap; rfl
  | cons q t ih =>
    intro cmap
    rw [List.foldl_cons, ih]
    cases hq : assocGet cmap q.1 with
    | some existing => exact assocGet_some_fst _ _ _ hq _
    | none => rfl

/-- C8: for every input and in both aggregation modes, the returned
contributor sequence is sorted by commit count in descending order, ties
keep the pre-sort order (the sort is stable: filtering any commit count
gives the same subsequence before and after sorting), and the pre-sort
order is the order in which each canonical aggregation key was first
encountered in the input. -/
theorem c8_output_order :
    (∀ cmap : ContribMap,
        (finalizeContributors cmap).Pairwise
            (fun a b => b.commits ≤ a.commits) ∧
          ∀ n : Nat,
            (finalizeContributors cmap).filter (fun r => r.commits == n) =
              ((cmap.map Prod.snd).map stripRec).filter
                (fun r => r.commits == n)) ∧
      (∀ ts : List (String × Nat × String),
        (summaryAggregate ts).map Prod.fst =
          firstOccurs (ts.map (fun t => jsToLower t.2.2))) ∧
      (∀ (mp : List (String × String)) (lines : List String),
        (fullPhase mp lines).map Prod.fst =
          firstOccurs (lines.filterMap (fullLineKey mp))) := by
  refine ⟨fun cmap => ⟨?_, fun n => ?_⟩, fun ts => ?_, fun mp lines => ?_⟩
  · exact sortFold_pairwise _ [] List.Pairwise.nil
  · exact sortFold_filter n ((cmap.map Prod.snd).map stripRec) []
      List.Pairwise.nil
  · exact summaryFold_fst ts []
  · have h1 := applyNameCounts_fst (fullAggregate mp lines).2
      (fullAggregate mp lines).1
    have h2 := fullFold_fst mp lines ([], [])
    unfold fullPhase
    rw [h1]
    exact h2

/-! ## Branch-membership resolver claims -/

/-- C9: if the per-commit branch-containment query fails for a sealed
commit (the external call throws, modelled as `none`), the resolution pass
leaves that commit — including its decoration-derived branch set — exactly
unchanged, and still resolves every other commit in the sequence. -/
theorem c9_resolver_failure (query : String → Option String)
    (pre post : List Commit) (c : Commit) (h : query c.hash = none) :
    resolveAll query (pre ++ c :: post) =
      resolveAll query pre ++ c :: resolveAll query post := by
  have hone : resolveOne query c = c := by
    unfold resolveOne
    split
    · rfl
    · rw [h]
  induction pre with
  | nil =>
    rw [List.nil_append]
    show resolveOne query c :: resolveAll query post =
      [] ++ c :: resolveAll query post
    rw [hone, List.nil_append]
  | cons d t ih =>
    rw [List.cons_append]
    show resolveOne query d :: resolveAll query (t ++ c :: post) =
      (resolveOne query d :: resolveAll query t) ++ c :: resolveAll query post
    rw [ih, List.cons_append]

theorem c9_resolver_failure_witness :
    resolveAll (fun _ => (none : Option String)) ([] ++ sampleCommit :: []) =
      resolveAll (fun _ => (none : Option String)) [] ++
        sampleCommit :: resolveAll (fun _ => (none : Option String)) [] :=
  c9_resolver_failure (fun _ => (none : Option String)) [] [] sampleCommit rfl

end Gstatx
